import Mathlib

/-!
Verification of the `str-reader` crate (`src/lib.rs`): a zero-allocation
string reader holding a remaining-input view (`input`, a `Chars` iterator,
modelled here as a `List Char`) and a one-character cached lookahead
(`current : Option Char`).  Every `&mut self` method of the Rust type is
embedded as a function `StringReader → result × StringReader`; a Rust
method that returns early with an error leaves the state component equal
to its argument, exactly as the Rust code leaves `self` untouched.
-/

set_option maxHeartbeats 1000000

/-- Rust `char::is_whitespace`: the Unicode `White_Space` property.
The 25 code points carrying the property, as in the Unicode character
database used by Rust. -/
def rustIsWhitespace (c : Char) : Bool :=
  [0x9, 0xA, 0xB, 0xC, 0xD, 0x20, 0x85, 0xA0, 0x1680,
   0x2000, 0x2001, 0x2002, 0x2003, 0x2004, 0x2005, 0x2006, 0x2007,
   0x2008, 0x2009, 0x200A, 0x2028, 0x2029, 0x202F, 0x205F, 0x3000].contains c.toNat

/-- `ParseError` from `src/lib.rs`. -/
inductive ParseError where
  | EmptyInput
  | NoMatch
deriving DecidableEq, Repr

/-- `input.starts_with(val)` on the char-sequence level: the first list
starts with the second. -/
def listStartsWith : List Char → List Char → Bool
  | _, [] => true
  | [], _ :: _ => false
  | a :: as, b :: bs => a = b && listStartsWith as bs

/-- `StringReader<'a>` from `src/lib.rs`: the unconsumed suffix of the
input (the `Chars` iterator) and the cached lookahead character. -/
structure StringReader where
  input : List Char
  current : Option Char
deriving DecidableEq, Repr

namespace StringReader

/-- `StringReader::new`: `input` is the full input, `current` is peeked
from a clone of the iterator without advancing it. -/
def new (s : List Char) : StringReader :=
  ⟨s, s.head?⟩

/-- `current_char`: return the cached lookahead, no mutation. -/
def current_char (r : StringReader) : Option Char :=
  r.current

/-- `as_str`: the rest of the input. -/
def as_str (r : StringReader) : List Char :=
  r.input

/-- `is_empty`: true iff `current_char()` is `None`. -/
def is_empty (r : StringReader) : Bool :=
  (current_char r).isNone

/-- `read_char`: take the next character from the iterator
(`EmptyInput` if none), then re-peek the lookahead. -/
def read_char (r : StringReader) : Except ParseError Char × StringReader :=
  match r.input with
  | [] => (.error .EmptyInput, r)
  | c :: rest => (.ok c, ⟨rest, rest.head?⟩)

/-- `skip_char`: drop one character from the iterator (no-op when it is
already exhausted), then re-peek the lookahead. -/
def skip_char (r : StringReader) : StringReader :=
  ⟨r.input.tail, r.input.tail.head?⟩

/-- `match_char`: `EmptyInput` if the lookahead is `None`, `NoMatch` if it
differs from `expected`, otherwise `skip_char`.  Early returns leave the
state untouched. -/
def match_char (expected : Char) (r : StringReader) :
    Except ParseError Unit × StringReader :=
  match current_char r with
  | none => (.error .EmptyInput, r)
  | some c =>
    if c ≠ expected then (.error .NoMatch, r)
    else (.ok (), skip_char r)

/-- The `skip_whitespace` loop from its second iteration on: after one
`skip_char` the lookahead is re-peeked from the iterator, so checking the
lookahead and dropping one character is checking the head and taking the
tail. -/
def skipWsGo : List Char → List Char
  | [] => []
  | c :: rest => if rustIsWhitespace c then skipWsGo rest else c :: rest

/-- `skip_whitespace`: while the lookahead is a whitespace character,
`skip_char`.  The first iteration inspects the cached lookahead; every
later iteration inspects a lookahead freshly re-peeked by `skip_char`,
which `skipWsGo` performs on the iterator contents. -/
def skip_whitespace (r : StringReader) : StringReader :=
  match r.current with
  | none => r
  | some c =>
    if rustIsWhitespace c then
      let l := skipWsGo r.input.tail
      ⟨l, l.head?⟩
    else r

/-- `match_str`: if the remaining input starts with `val`, split it after
`val` and re-peek the lookahead; otherwise `NoMatch`, state untouched. -/
def match_str (val : List Char) (r : StringReader) :
    Except ParseError Unit × StringReader :=
  if listStartsWith r.input val then
    (.ok (), ⟨r.input.drop val.length, (r.input.drop val.length).head?⟩)
  else
    (.error .NoMatch, r)

/-- `read_until`: split the remaining input at the first position where
`cnd` holds (at its end if nowhere), return the prefix, advance past it,
re-peek the lookahead. -/
def read_until (cnd : Char → Bool) (r : StringReader) :
    List Char × StringReader :=
  (r.input.takeWhile (fun c => !cnd c),
   ⟨r.input.dropWhile (fun c => !cnd c),
    (r.input.dropWhile (fun c => !cnd c)).head?⟩)

/-- `read_word`: `skip_whitespace` then `read_until(char::is_whitespace)`. -/
def read_word (r : StringReader) : List Char × StringReader :=
  read_until rustIsWhitespace (skip_whitespace r)

/-- `parse_word::<T>` with `T::from_str` abstracted as `parse`: trim the
leading whitespace of the remaining input, cut the candidate token at the
first whitespace character, try the conversion, and only commit the new
cursor on success; a conversion error propagates with the state
untouched. -/
def parse_word {ε α : Type} (parse : List Char → Except ε α)
    (r : StringReader) : Except ε α × StringReader :=
  let rest := r.input.dropWhile rustIsWhitespace
  let word := rest.takeWhile (fun c => !rustIsWhitespace c)
  let rest2 := rest.dropWhile (fun c => !rustIsWhitespace c)
  match parse word with
  | .error e => (.error e, r)
  | .ok v => (.ok v, ⟨rest2, rest2.head?⟩)

end StringReader

namespace StringReader

/-- The cursor invariant of `StringReader`: the cached lookahead is the
first character of the remaining input. -/
def Wf (r : StringReader) : Prop :=
  r.current = r.input.head?

instance (r : StringReader) : Decidable (Wf r) := by
  unfold Wf; infer_instance

theorem skipWsGo_eq_dropWhile (l : List Char) :
    skipWsGo l = l.dropWhile rustIsWhitespace := by
  induction l with
  | nil => rfl
  | cons c rest ih =>
    simp only [skipWsGo, List.dropWhile_cons]
    by_cases h : rustIsWhitespace c <;> simp [h, ih]

theorem skip_whitespace_eq (r : StringReader) (h : Wf r) :
    skip_whitespace r =
      ⟨r.input.dropWhile rustIsWhitespace,
       (r.input.dropWhile rustIsWhitespace).head?⟩ := by
  obtain ⟨inp, cur⟩ := r
  simp only [Wf] at h
  subst h
  cases inp with
  | nil => rfl
  | cons c rest =>
    simp only [skip_whitespace, List.head?_cons, List.dropWhile_cons]
    by_cases hc : rustIsWhitespace c <;>
      simp [hc, skipWsGo_eq_dropWhile, List.tail]

theorem listStartsWith_iff (l v : List Char) :
    listStartsWith l v = true ↔ ∃ rest, l = v ++ rest := by
  induction v generalizing l with
  | nil => simp [listStartsWith]
  | cons b bs ih =>
    cases l with
    | nil =>
      simp only [listStartsWith, List.cons_append]
      constructor
      · intro hfalse; cases hfalse
      · rintro ⟨rest, hrest⟩; cases hrest
    | cons a as =>
      simp only [listStartsWith, Bool.and_eq_true, decide_eq_true_eq, ih,
        List.cons_append, List.cons.injEq]
      constructor
      · rintro ⟨rfl, rest, rfl⟩; exact ⟨rest, rfl, rfl⟩
      · rintro ⟨rest, rfl, rfl⟩; exact ⟨rfl, rest, rfl⟩

theorem Wf_new (s : List Char) : Wf (new s) := rfl

theorem Wf_skip_char (r : StringReader) : Wf (skip_char r) := rfl

theorem Wf_read_char (r : StringReader) (h : Wf r) : Wf (read_char r).2 := by
  cases hi : r.input <;> simp [read_char, hi, Wf, h, Wf.eq_1] at h ⊢ <;>
    simp [h]

theorem Wf_match_char (expected : Char) (r : StringReader) (h : Wf r) :
    Wf (match_char expected r).2 := by
  unfold match_char
  cases hc : current_char r with
  | none => exact h
  | some c =>
    by_cases he : c ≠ expected <;> simp [he, h, Wf_skip_char]

theorem Wf_skip_whitespace (r : StringReader) (h : Wf r) :
    Wf (skip_whitespace r) := by
  rw [skip_whitespace_eq r h]; rfl

theorem Wf_match_str (val : List Char) (r : StringReader) (h : Wf r) :
    Wf (match_str val r).2 := by
  unfold match_str
  by_cases hs : listStartsWith r.input val <;> simp [hs, Wf] <;> exact h

theorem Wf_read_until (cnd : Char → Bool) (r : StringReader) :
    Wf (read_until cnd r).2 := rfl

theorem Wf_read_word (r : StringReader) (h : Wf r) : Wf (read_word r).2 :=
  Wf_read_until _ _

theorem Wf_parse_word {ε α : Type} (parse : List Char → Except ε α)
    (r : StringReader) (h : Wf r) : Wf (parse_word parse r).2 := by
  unfold parse_word
  cases hp : parse ((r.input.dropWhile rustIsWhitespace).takeWhile
      (fun c => !rustIsWhitespace c)) <;> simp [hp, Wf] <;> try exact h

/-- One call of the public mutating API.  `parseWord` carries the success
predicate of the conversion: the cursor effect of `parse_word` depends on
the conversion only through whether it succeeds. -/
inductive Op where
  | readChar
  | matchChar (c : Char)
  | skipChar
  | skipWhitespace
  | matchStr (val : List Char)
  | readUntil (cnd : Char → Bool)
  | readWord
  | parseWord (ok : List Char → Bool)

/-- The state effect of one call. -/
def applyOp (op : Op) (r : StringReader) : StringReader :=
  match op with
  | .readChar => (StringReader.read_char r).2
  | .matchChar c => (StringReader.match_char c r).2
  | .skipChar => StringReader.skip_char r
  | .skipWhitespace => StringReader.skip_whitespace r
  | .matchStr val => (StringReader.match_str val r).2
  | .readUntil cnd => (StringReader.read_until cnd r).2
  | .readWord => (StringReader.read_word r).2
  | .parseWord ok =>
    (StringReader.parse_word
      (fun w => if ok w then Except.ok () else Except.error ()) r).2

/-- The state after a sequence of calls. -/
def runOps (ops : List Op) (r : StringReader) : StringReader :=
  ops.foldl (fun s op => applyOp op s) r

theorem Wf_applyOp (op : Op) (r : StringReader) (h : r.Wf) :
    (applyOp op r).Wf := by
  cases op with
  | readChar => exact StringReader.Wf_read_char r h
  | matchChar c => exact StringReader.Wf_match_char c r h
  | skipChar => exact StringReader.Wf_skip_char r
  | skipWhitespace => exact StringReader.Wf_skip_whitespace r h
  | matchStr val => exact StringReader.Wf_match_str val r h
  | readUntil cnd => exact StringReader.Wf_read_until cnd r
  | readWord => exact StringReader.Wf_read_word r h
  | parseWord ok => exact StringReader.Wf_parse_word _ r h

theorem Wf_runOps (ops : List Op) (r : StringReader) (h : r.Wf) :
    (runOps ops r).Wf := by
  induction ops generalizing r with
  | nil => exact h
  | cons op ops ih =>
    exact ih (applyOp op r) (Wf_applyOp op r h)

theorem mem_takeWhile_sat {p : Char → Bool} {l : List Char} {c : Char}
    (h : c ∈ l.takeWhile p) : p c = true := by
  induction l with
  | nil => cases h
  | cons a as ih =>
    rw [List.takeWhile_cons] at h
    by_cases hp : p a
    · simp only [hp, if_true, List.mem_cons] at h
      rcases h with rfl | h
      · exact hp
      · exact ih h
    · simp [hp] at h

theorem head_dropWhile_unsat {p : Char → Bool} {l rest : List Char}
    {c : Char} (h : l.dropWhile p = c :: rest) : p c = false := by
  induction l with
  | nil => cases h
  | cons a as ih =>
    rw [List.dropWhile_cons] at h
    by_cases hp : p a
    · simp only [hp, if_true] at h
      exact ih h
    · simp only [hp, if_false] at h
      cases h
      simpa using hp

theorem dropWhile_eq_drop_length_takeWhile (p : Char → Bool)
    (l : List Char) :
    l.dropWhile p = l.drop (l.takeWhile p).length := by
  conv_lhs =>
    rw [show l.dropWhile p = ((l.takeWhile p ++ l.dropWhile p).drop
      (l.takeWhile p).length) from (List.drop_left _ _).symm]
  rw [List.takeWhile_append_dropWhile]

/-- C1.  Non-mutation on failure: whenever `match_char`, `match_str` or
`parse_word` returns an error, the remaining-input view `as_str` and the
cached lookahead `current_char` after the call equal their values before
the call. -/
theorem C1_non_mutation_on_failure (r : StringReader) (c : Char)
    (val : List Char) (ε α : Type) (parse : List Char → Except ε α)
    (e1 e2 : ParseError) (e3 : ε) :
    ((StringReader.match_char c r).1 = Except.error e1 →
      (StringReader.match_char c r).2.as_str = r.as_str ∧
      (StringReader.match_char c r).2.current_char = r.current_char) ∧
    ((StringReader.match_str val r).1 = Except.error e2 →
      (StringReader.match_str val r).2.as_str = r.as_str ∧
      (StringReader.match_str val r).2.current_char = r.current_char) ∧
    ((StringReader.parse_word parse r).1 = Except.error e3 →
      (StringReader.parse_word parse r).2.as_str = r.as_str ∧
      (StringReader.parse_word parse r).2.current_char = r.current_char) := by
  refine ⟨?_, ?_, ?_⟩
  · intro hfail
    unfold StringReader.match_char at hfail ⊢
    cases hc : StringReader.current_char r with
    | none => simp [hc]
    | some c0 =>
      by_cases he : c0 ≠ c
      · simp [hc, he]
      · simp [hc, he] at hfail
  · intro hfail
    unfold StringReader.match_str at hfail ⊢
    by_cases hs : listStartsWith r.input val
    · simp [hs] at hfail
    · simp [hs]
  · intro hfail
    unfold StringReader.parse_word at hfail ⊢
    cases hp : parse ((r.input.dropWhile rustIsWhitespace).takeWhile
        (fun x => !rustIsWhitespace x)) with
    | error e => simp [hp]
    | ok v => simp [hp] at hfail

/-- Witness for C1 at concrete failing calls on the reader over
`"abc"`. -/
theorem C1_witness :
    (StringReader.match_char 'z' (StringReader.new "abc".toList)).2.as_str
        = (StringReader.new "abc".toList).as_str ∧
    (StringReader.match_str "zz".toList
        (StringReader.new "abc".toList)).2.as_str
        = (StringReader.new "abc".toList).as_str ∧
    (StringReader.parse_word (fun _ => (Except.error 0 : Except Nat Unit))
        (StringReader.new "abc".toList)).2.as_str
        = (StringReader.new "abc".toList).as_str :=
  ⟨((C1_non_mutation_on_failure (StringReader.new "abc".toList) 'z'
      "zz".toList Nat Unit (fun _ => Except.error 0)
      ParseError.NoMatch ParseError.NoMatch 0).1 rfl).1,
   ((C1_non_mutation_on_failure (StringReader.new "abc".toList) 'z'
      "zz".toList Nat Unit (fun _ => Except.error 0)
      ParseError.NoMatch ParseError.NoMatch 0).2.1 rfl).1,
   ((C1_non_mutation_on_failure (StringReader.new "abc".toList) 'z'
      "zz".toList Nat Unit (fun _ => Except.error 0)
      ParseError.NoMatch ParseError.NoMatch 0).2.2 rfl).1⟩

/-- C2.  Lookahead consistency: for every reader produced by `new` and
every sequence of operations applied to it, `current_char` equals the
first character of `as_str`, and `current_char` is `none` exactly when
`as_str` is empty. -/
theorem C2_lookahead_consistency (s : List Char) (ops : List Op) :
    (runOps ops (StringReader.new s)).current_char
        = (runOps ops (StringReader.new s)).as_str.head? ∧
    ((runOps ops (StringReader.new s)).current_char = none ↔
        (runOps ops (StringReader.new s)).as_str = []) := by
  have h := Wf_runOps ops (StringReader.new s) (StringReader.Wf_new s)
  unfold StringReader.Wf at h
  refine ⟨h, ?_⟩
  rw [StringReader.current_char, StringReader.as_str, h]
  cases (runOps ops (StringReader.new s)).input <;> simp

/-- C3.  `read_until` correctness: the returned slice is the part of the
remaining input strictly before the first position where the predicate
holds (everything if it never holds), the cursor advances exactly past
that slice, and an empty slice is an ordinary successful result when the
predicate holds at position 0 or the input is already empty.  The
operation is a total function (it cannot fail). -/
theorem C3_read_until_correct (r : StringReader) (cnd : Char → Bool) :
    (StringReader.read_until cnd r).1 ++ (StringReader.read_until cnd r).2.as_str
        = r.as_str ∧
    (∀ c, c ∈ (StringReader.read_until cnd r).1 → cnd c = false) ∧
    (∀ c rest, (StringReader.read_until cnd r).2.as_str = c :: rest →
        cnd c = true) ∧
    (StringReader.read_until cnd r).2.as_str
        = r.as_str.drop (StringReader.read_until cnd r).1.length ∧
    (r.as_str = [] → (StringReader.read_until cnd r).1 = []) ∧
    (∀ c rest, r.as_str = c :: rest → cnd c = true →
        (StringReader.read_until cnd r).1 = []) := by
  unfold StringReader.read_until StringReader.as_str
  refine ⟨List.takeWhile_append_dropWhile _ _, ?_, ?_, ?_, ?_, ?_⟩
  · intro c hc
    have := mem_takeWhile_sat hc
    simpa using this
  · intro c rest hrest
    have := head_dropWhile_unsat hrest
    simpa using this
  · exact dropWhile_eq_drop_length_takeWhile _ _
  · intro h
    simp [h]
  · intro c rest h hcnd
    simp [h, List.takeWhile_cons, hcnd]

/-- Witness for C3 on the reader over `"ab,cd"` splitting at the first
comma, and on an empty reader. -/
theorem C3_witness :
    ((StringReader.read_until (fun c => c = ',')
        (StringReader.new "ab,cd".toList)).1 ++
      (StringReader.read_until (fun c => c = ',')
        (StringReader.new "ab,cd".toList)).2.as_str
        = (StringReader.new "ab,cd".toList).as_str) ∧
    (StringReader.read_until (fun c => c = ',')
        (StringReader.new "".toList)).1 = [] :=
  ⟨(C3_read_until_correct (StringReader.new "ab,cd".toList)
      (fun c => c = ',')).1,
   (C3_read_until_correct (StringReader.new "".toList)
      (fun c => c = ',')).2.2.2.2.1 rfl⟩

/-- C4.  `match_str` correctness: it succeeds and advances the cursor past
exactly `val.length` characters iff the remaining input starts with `val`
(exact, case-sensitive character-sequence comparison); otherwise it fails
with `NoMatch` and the state is unchanged. -/
theorem C4_match_str_correct (r : StringReader) (val : List Char) :
    ((∃ rest, r.as_str = val ++ rest) →
      (StringReader.match_str val r).1 = Except.ok () ∧
      (StringReader.match_str val r).2.as_str = r.as_str.drop val.length ∧
      (StringReader.match_str val r).2.as_str.length + val.length
          = r.as_str.length) ∧
    ((¬ ∃ rest, r.as_str = val ++ rest) →
      (StringReader.match_str val r).1 = Except.error ParseError.NoMatch ∧
      (StringReader.match_str val r).2 = r) := by
  unfold StringReader.match_str StringReader.as_str
  by_cases hs : listStartsWith r.input val
  · rw [listStartsWith_iff] at hs
    obtain ⟨rest, hrest⟩ := hs
    have hs2 : listStartsWith r.input val = true := by
      rw [listStartsWith_iff]; exact ⟨rest, hrest⟩
    constructor
    · intro _
      refine ⟨by simp [hs2], by simp [hs2], ?_⟩
      simp only [hs2, if_true]
      rw [hrest, List.drop_left, List.length_append]
      omega
    · intro hno
      exact absurd ⟨rest, hrest⟩ hno
  · have hs2 : listStartsWith r.input val ≠ true := hs
    constructor
    · intro hyes
      rw [← listStartsWith_iff] at hyes
      exact absurd hyes hs
    · intro _
      simp [hs2]

/-- Witness for C4: `match_str "ab"` succeeds on `"abc"` and
`match_str "zz"` fails on `"abc"` leaving the state unchanged. -/
theorem C4_witness :
    (StringReader.match_str "ab".toList (StringReader.new "abc".toList)).1
        = Except.ok () ∧
    (StringReader.match_str "zz".toList (StringReader.new "abc".toList)).2
        = StringReader.new "abc".toList :=
  ⟨((C4_match_str_correct (StringReader.new "abc".toList) "ab".toList).1
      ⟨"c".toList, by decide⟩).1,
   ((C4_match_str_correct (StringReader.new "abc".toList) "zz".toList).2
      (by rw [← listStartsWith_iff]; decide)).2⟩

/-- C5.  `read_word` behaviour: it is `skip_whitespace` followed by
`read_until(is_whitespace)`, the returned slice is a maximal run of
non-whitespace characters (every character of the word is non-whitespace
and the character after it, if any, is whitespace), an empty slice is an
ordinary success when no word remains, and on the documented example
input the first word is `"Hello,"` with remaining
`" World!!!   1234\n\tfoo-bar"`. -/
theorem C5_read_word_behaviour (r : StringReader) (h : r.Wf) :
    StringReader.read_word r
        = StringReader.read_until rustIsWhitespace
            (StringReader.skip_whitespace r) ∧
    (∀ c, c ∈ (StringReader.read_word r).1 → rustIsWhitespace c = false) ∧
    (∀ c rest, (StringReader.read_word r).2.as_str = c :: rest →
        rustIsWhitespace c = true) ∧
    (r.as_str.dropWhile rustIsWhitespace = [] →
        (StringReader.read_word r).1 = []) ∧
    (StringReader.read_word
        (StringReader.new "Hello, World!!!   1234\n\tfoo-bar".toList)).1
        = "Hello,".toList ∧
    (StringReader.read_word
        (StringReader.new "Hello, World!!!   1234\n\tfoo-bar".toList)).2.as_str
        = " World!!!   1234\n\tfoo-bar".toList := by
  refine ⟨rfl, ?_, ?_, ?_, by decide, by decide⟩
  · intro c hc
    unfold StringReader.read_word at hc
    rw [StringReader.skip_whitespace_eq r h] at hc
    unfold StringReader.read_until at hc
    have := mem_takeWhile_sat hc
    simpa using this
  · intro c rest hrest
    unfold StringReader.read_word at hrest
    rw [StringReader.skip_whitespace_eq r h] at hrest
    unfold StringReader.read_until StringReader.as_str at hrest
    have := head_dropWhile_unsat hrest
    simpa using this
  · intro hnone
    unfold StringReader.read_word
    rw [StringReader.skip_whitespace_eq r h]
    unfold StringReader.read_until
    simp only [StringReader.as_str] at hnone
    simp [hnone]

/-- Witness for C5 at the documented example input; the `Wf` hypothesis
is discharged for a freshly constructed reader. -/
theorem C5_witness :
    (StringReader.read_word
        (StringReader.new "Hello, World!!!   1234\n\tfoo-bar".toList)).1
        = "Hello,".toList :=
  (C5_read_word_behaviour (StringReader.new "".toList) rfl).2.2.2.2.1

/-- C6.  `match_char` error taxonomy: with the input exhausted it fails
with `EmptyInput`, with a differing current character it fails with
`NoMatch` (state untouched in both cases), and otherwise it succeeds with
no value consuming exactly one character. -/
theorem C6_match_char_taxonomy (r : StringReader) (expected : Char)
    (h : r.Wf) :
    (r.as_str = [] →
      (StringReader.match_char expected r).1
          = Except.error ParseError.EmptyInput ∧
      (StringReader.match_char expected r).2 = r) ∧
    (∀ c rest, r.as_str = c :: rest → c ≠ expected →
      (StringReader.match_char expected r).1
          = Except.error ParseError.NoMatch ∧
      (StringReader.match_char expected r).2 = r) ∧
    (∀ rest, r.as_str = expected :: rest →
      (StringReader.match_char expected r).1 = Except.ok () ∧
      (StringReader.match_char expected r).2.as_str = rest ∧
      (StringReader.match_char expected r).2.as_str.length + 1
          = r.as_str.length) := by
  obtain ⟨inp, cur⟩ := r
  simp only [StringReader.Wf] at h
  subst h
  refine ⟨?_, ?_, ?_⟩
  · intro hemp
    simp only [StringReader.as_str] at hemp
    subst hemp
    exact ⟨rfl, rfl⟩
  · intro c rest hinp hne
    simp only [StringReader.as_str] at hinp
    subst hinp
    simp [StringReader.match_char, StringReader.current_char, hne]
  · intro rest hinp
    simp only [StringReader.as_str] at hinp
    subst hinp
    simp [StringReader.match_char, StringReader.current_char,
      StringReader.skip_char, StringReader.as_str]

/-- Witness for C6: the three outcomes at concrete inputs. -/
theorem C6_witness :
    (StringReader.match_char 'a' (StringReader.new "".toList)).1
        = Except.error ParseError.EmptyInput ∧
    (StringReader.match_char 'z' (StringReader.new "abc".toList)).1
        = Except.error ParseError.NoMatch ∧
    (StringReader.match_char 'a' (StringReader.new "abc".toList)).1
        = Except.ok () :=
  ⟨((C6_match_char_taxonomy (StringReader.new "".toList) 'a' rfl).1 rfl).1,
   ((C6_match_char_taxonomy (StringReader.new "abc".toList) 'z' rfl).2.1
      'a' "bc".toList rfl (by decide)).1,
   ((C6_match_char_taxonomy (StringReader.new "abc".toList) 'a' rfl).2.2
      "bc".toList rfl).1⟩

/-- Driver for the round-trip property: call `read_word` repeatedly until
`is_empty`, recording for each call the whitespace run it skips (the
whitespace prefix of the remaining input) and the word it returns.  Fuel
bounds the iteration count; `length + 1` suffices. -/
def readWordsAux : Nat → StringReader → List (List Char × List Char)
  | 0, _ => []
  | fuel + 1, r =>
    if StringReader.is_empty r then []
    else
      (r.input.takeWhile rustIsWhitespace, (StringReader.read_word r).1)
        :: readWordsAux fuel (StringReader.read_word r).2

/-- All whitespace runs and words produced by draining a fresh reader
over `s` with `read_word`. -/
def readWords (s : List Char) : List (List Char × List Char) :=
  readWordsAux (s.length + 1) (StringReader.new s)

/-- Concatenation, in order, of every whitespace run and word. -/
def concatPieces : List (List Char × List Char) → List Char
  | [] => []
  | p :: ps => p.1 ++ p.2 ++ concatPieces ps

theorem read_word_decomposition (r : StringReader) (h : r.Wf) :
    r.input.takeWhile rustIsWhitespace ++ (StringReader.read_word r).1
      ++ (StringReader.read_word r).2.input = r.input := by
  unfold StringReader.read_word
  rw [StringReader.skip_whitespace_eq r h]
  unfold StringReader.read_until
  simp only [List.append_assoc, List.takeWhile_append_dropWhile]

theorem read_word_consumes (r : StringReader) (h : r.Wf)
    (hne : r.input ≠ []) :
    (StringReader.read_word r).2.input.length < r.input.length := by
  have hdec := read_word_decomposition r h
  rcases hinp : r.input with _ | ⟨c, rest0⟩
  · exact absurd hinp hne
  by_cases hc : rustIsWhitespace c
  · have hws : r.input.takeWhile rustIsWhitespace
        = c :: rest0.takeWhile rustIsWhitespace := by
      rw [hinp, List.takeWhile_cons_of_pos hc]
    have := congrArg List.length hdec
    rw [hws] at this
    simp only [List.length_append, List.length_cons, hinp,
      List.length_cons] at this
    simp only [List.length_cons]
    omega
  · have hword : (StringReader.read_word r).1
        = c :: ((rest0.takeWhile (fun x => !rustIsWhitespace x))) := by
      unfold StringReader.read_word
      rw [StringReader.skip_whitespace_eq r h]
      unfold StringReader.read_until
      simp only [hinp, List.dropWhile_cons_of_neg hc]
      rw [List.takeWhile_cons_of_pos (by simpa using hc)]
    have := congrArg List.length hdec
    rw [hword] at this
    simp only [List.length_append, List.length_cons, hinp,
      List.takeWhile_cons_of_neg hc, List.length_nil,
      List.length_cons] at this
    simp only [List.length_cons]
    omega

theorem is_empty_iff (r : StringReader) (h : r.Wf) :
    StringReader.is_empty r = true ↔ r.input = [] := by
  obtain ⟨inp, cur⟩ := r
  simp only [StringReader.Wf] at h
  subst h
  cases inp <;>
    simp [StringReader.is_empty, StringReader.current_char]

theorem readWordsAux_concat (fuel : Nat) (r : StringReader) (h : r.Wf)
    (hlen : r.input.length < fuel) :
    concatPieces (readWordsAux fuel r) = r.input := by
  induction fuel generalizing r with
  | zero => omega
  | succ fuel ih =>
    rw [readWordsAux]
    by_cases hemp : StringReader.is_empty r = true
    · rw [if_pos hemp, concatPieces]
      exact ((is_empty_iff r h).1 hemp).symm
    · rw [if_neg hemp, concatPieces]
      have hinp : r.input ≠ [] := fun hnil =>
        hemp ((is_empty_iff r h).2 hnil)
      rw [ih (StringReader.read_word r).2 (StringReader.Wf_read_word r h)
        (by have := read_word_consumes r h hinp; omega)]
      exact read_word_decomposition r h

/-- C7.  Word/whitespace round-trip: draining a fresh reader with
`read_word` until it is empty and concatenating, in order, every skipped
whitespace run and every returned word reconstructs the original input
exactly. -/
theorem C7_word_whitespace_roundtrip (s : List Char) :
    concatPieces (readWords s) = s :=
  readWordsAux_concat (s.length + 1) (StringReader.new s)
    (StringReader.Wf_new s) (show s.length < s.length + 1 by omega)

theorem dropWhile_length_le (p : Char → Bool) (l : List Char) :
    (l.dropWhile p).length ≤ l.length := by
  rw [dropWhile_eq_drop_length_takeWhile, List.length_drop]
  omega

theorem tail_length_le (l : List Char) : l.tail.length ≤ l.length := by
  rw [List.length_tail]
  omega

theorem skip_whitespace_length_le (r : StringReader) :
    (StringReader.skip_whitespace r).input.length ≤ r.input.length := by
  unfold StringReader.skip_whitespace
  cases r.current with
  | none => exact le_refl _
  | some c =>
    by_cases hc : rustIsWhitespace c
    · simp only [hc, if_true]
      have h1 : (skipWsGo r.input.tail).length ≤ r.input.tail.length := by
        rw [skipWsGo_eq_dropWhile]
        exact dropWhile_length_le _ _
      exact Nat.le_trans h1 (tail_length_le _)
    · simp [hc]

theorem applyOp_length_le (op : Op) (r : StringReader) :
    (applyOp op r).input.length ≤ r.input.length := by
  cases op with
  | readChar =>
    obtain ⟨inp, cur⟩ := r
    cases inp with
    | nil => exact Nat.le_refl _
    | cons a as => simp [applyOp, StringReader.read_char]
  | matchChar c =>
    obtain ⟨inp, cur⟩ := r
    cases cur with
    | none => exact Nat.le_refl _
    | some c0 =>
      by_cases he : c0 ≠ c
      · simp [applyOp, StringReader.match_char,
          StringReader.current_char, he]
      · simp only [applyOp, StringReader.match_char,
          StringReader.current_char, he, ite_false]
        simpa [StringReader.skip_char] using tail_length_le inp
  | skipChar =>
    simpa [applyOp, StringReader.skip_char] using tail_length_le r.input
  | skipWhitespace => exact skip_whitespace_length_le r
  | matchStr val =>
    unfold applyOp StringReader.match_str
    by_cases hs : listStartsWith r.input val
    · simp only [hs, if_true]
      rw [List.length_drop]
      omega
    · simp [hs]
  | readUntil cnd =>
    simpa [applyOp, StringReader.read_until] using
      dropWhile_length_le (fun c => !cnd c) r.input
  | readWord =>
    unfold applyOp StringReader.read_word StringReader.read_until
    exact le_trans
      (dropWhile_length_le _ (StringReader.skip_whitespace r).input)
      (skip_whitespace_length_le r)
  | parseWord ok =>
    unfold applyOp StringReader.parse_word
    by_cases hok : ok ((r.input.dropWhile rustIsWhitespace).takeWhile
        (fun c => !rustIsWhitespace c))
    · simp only [hok, if_true]
      exact le_trans
        (dropWhile_length_le _ (r.input.dropWhile rustIsWhitespace))
        (dropWhile_length_le _ r.input)
    · simp [hok]

theorem runOps_length_le (ops : List Op) (r : StringReader) :
    (runOps ops r).input.length ≤ r.input.length := by
  induction ops generalizing r with
  | nil => exact le_refl _
  | cons op ops ih =>
    exact le_trans (ih (applyOp op r)) (applyOp_length_le op r)

/-- Counterexample to C8 as stated: `match_str` with the empty literal
succeeds on any reader yet consumes nothing, so success of `match_str`
does not imply a strict decrease of the remaining length. -/
theorem C8_counterexample :
    (StringReader.match_str [] (StringReader.new "ab".toList)).1
        = Except.ok () ∧
    ¬ ((StringReader.match_str [] (StringReader.new "ab".toList)).2.as_str.length
        < (StringReader.new "ab".toList).as_str.length) :=
  ⟨rfl, by decide⟩

/-- C8 (amended).  Monotonic consumption: the remaining length is
non-increasing across every single operation and every sequence of
operations; it strictly decreases for a successful `read_char`, for
`skip_char` on non-empty input, for `match_char` on success, for
`match_str` on success with a NON-EMPTY literal, and for any `read_until`
or `read_word` call that consumes at least one character. -/
theorem C8_monotonic_consumption (r : StringReader) (h : r.Wf) (op : Op)
    (ops : List Op) (c : Char) (val : List Char) (cnd : Char → Bool) :
    (applyOp op r).as_str.length ≤ r.as_str.length ∧
    (runOps ops r).as_str.length ≤ r.as_str.length ∧
    (∀ ch, (StringReader.read_char r).1 = Except.ok ch →
      (StringReader.read_char r).2.as_str.length < r.as_str.length) ∧
    (r.as_str ≠ [] →
      (StringReader.skip_char r).as_str.length < r.as_str.length) ∧
    ((StringReader.match_char c r).1 = Except.ok () →
      (StringReader.match_char c r).2.as_str.length < r.as_str.length) ∧
    (val ≠ [] → (StringReader.match_str val r).1 = Except.ok () →
      (StringReader.match_str val r).2.as_str.length < r.as_str.length) ∧
    ((StringReader.read_until cnd r).2.as_str ≠ r.as_str →
      (StringReader.read_until cnd r).2.as_str.length < r.as_str.length) ∧
    ((StringReader.read_word r).2.as_str ≠ r.as_str →
      (StringReader.read_word r).2.as_str.length < r.as_str.length) := by
  refine ⟨applyOp_length_le op r, runOps_length_le ops r, ?_, ?_, ?_, ?_,
    ?_, ?_⟩
  · intro ch hok
    unfold StringReader.read_char at hok ⊢
    simp only [StringReader.as_str]
    cases hinp : r.input with
    | nil => rw [hinp] at hok; cases hok
    | cons a as => simp [hinp]
  · intro hne
    unfold StringReader.skip_char StringReader.as_str
    cases hinp : r.input with
    | nil => exact absurd hinp hne
    | cons a as => simp
  · intro hok
    obtain ⟨inp, cur⟩ := r
    simp only [StringReader.Wf] at h
    subst h
    cases inp with
    | nil =>
      simp [StringReader.match_char, StringReader.current_char] at hok
    | cons a as =>
      by_cases he : a = c
      · subst he
        simp [StringReader.match_char, StringReader.current_char,
          StringReader.skip_char, StringReader.as_str]
      · simp [StringReader.match_char, StringReader.current_char, he]
          at hok
  · intro hvne hok
    unfold StringReader.match_str at hok ⊢
    by_cases hs : listStartsWith r.input val
    · rw [if_pos hs]
      have := (listStartsWith_iff r.input val).1 hs
      obtain ⟨rest, hrest⟩ := this
      simp only [StringReader.as_str, List.length_drop, hrest,
        List.length_append]
      have : 1 ≤ val.length := by
        cases val with
        | nil => exact absurd rfl hvne
        | cons v vs => simp
      omega
    · rw [if_neg hs] at hok
      cases hok
  · intro hne
    unfold StringReader.read_until StringReader.as_str at hne ⊢
    have hsplit := List.takeWhile_append_dropWhile (fun c => !cnd c) r.input
    have hlen := congrArg List.length hsplit
    rw [List.length_append] at hlen
    by_cases ht : (r.input.takeWhile (fun c => !cnd c)).length = 0
    · rw [List.length_eq_zero.1 ht, List.nil_append] at hsplit
      exact absurd hsplit hne
    · have : (r.input.dropWhile (fun c => !cnd c)).length
          < r.input.length := by omega
      exact this
  · intro hne
    unfold StringReader.as_str at hne ⊢
    have hdec := read_word_decomposition r h
    have hlen := congrArg List.length hdec
    simp only [List.length_append] at hlen
    by_cases hz : (r.input.takeWhile rustIsWhitespace).length = 0 ∧
        (StringReader.read_word r).1.length = 0
    · obtain ⟨h1, h2⟩ := hz
      rw [List.length_eq_zero.1 h1, List.length_eq_zero.1 h2,
        List.nil_append, List.nil_append] at hdec
      exact absurd hdec hne
    · rw [Decidable.not_and_iff_or_not] at hz
      rcases hz with hz | hz <;> omega

/-- Witness for C8 on the reader over `"abc"`: a successful `read_char`,
a `skip_char` on non-empty input and a successful non-empty `match_str`
each strictly decrease the remaining length. -/
theorem C8_witness :
    (StringReader.read_char (StringReader.new "abc".toList)).2.as_str.length
        < (StringReader.new "abc".toList).as_str.length ∧
    (StringReader.skip_char (StringReader.new "abc".toList)).as_str.length
        < (StringReader.new "abc".toList).as_str.length ∧
    (StringReader.match_str "ab".toList
        (StringReader.new "abc".toList)).2.as_str.length
        < (StringReader.new "abc".toList).as_str.length :=
  ⟨(C8_monotonic_consumption (StringReader.new "abc".toList) rfl
      Op.skipChar [] 'a' "ab".toList (fun _ => true)).2.2.1 'a' rfl,
   (C8_monotonic_consumption (StringReader.new "abc".toList) rfl
      Op.skipChar [] 'a' "ab".toList (fun _ => true)).2.2.2.1
      (by decide),
   (C8_monotonic_consumption (StringReader.new "abc".toList) rfl
      Op.skipChar [] 'a' "ab".toList (fun _ => true)).2.2.2.2.2.1
      (by decide) rfl⟩

/-- C9.  Totality / no panics: every operation is embedded as a total
function whose fallible outcomes are explicit `Except` values, and the
string-splitting positions used by `match_str`, `read_until` and
`parse_word` are always in range and split the remaining input exactly:
a matched literal is no longer than the remaining input, `read_until`
decomposes the remaining input into the returned slice and the new
remainder, and `match_str`/`parse_word` always leave a suffix of the
remaining input (the split-off prefix is recovered exactly). -/
theorem C9_totality_split_positions (r : StringReader) (val : List Char)
    (cnd : Char → Bool) (ε α : Type) (parse : List Char → Except ε α) :
    (listStartsWith r.input val = true → val.length ≤ r.input.length) ∧
    ((StringReader.read_until cnd r).1.length ≤ r.input.length) ∧
    ((StringReader.read_until cnd r).1
        ++ (StringReader.read_until cnd r).2.input = r.input) ∧
    (∃ pre, pre ++ (StringReader.match_str val r).2.input = r.input) ∧
    (∃ pre, pre ++ (StringReader.parse_word parse r).2.input
        = r.input) := by
  refine ⟨?_, ?_, List.takeWhile_append_dropWhile _ _, ?_, ?_⟩
  · intro hs
    obtain ⟨rest, hrest⟩ := (listStartsWith_iff r.input val).1 hs
    rw [hrest, List.length_append]
    omega
  · have hsplit := List.takeWhile_append_dropWhile (fun c => !cnd c) r.input
    have hlen := congrArg List.length hsplit
    rw [List.length_append] at hlen
    have : (r.input.takeWhile (fun c => !cnd c)).length
        ≤ r.input.length := by omega
    exact this
  · unfold StringReader.match_str
    by_cases hs : listStartsWith r.input val
    · obtain ⟨rest, hrest⟩ := (listStartsWith_iff r.input val).1 hs
      refine ⟨val, ?_⟩
      simp only [hs, if_true]
      rw [hrest, List.drop_left]
    · exact ⟨[], by simp [hs]⟩
  · unfold StringReader.parse_word
    cases hp : parse ((r.input.dropWhile rustIsWhitespace).takeWhile
        (fun c => !rustIsWhitespace c)) with
    | error e => exact ⟨[], by simp [hp]⟩
    | ok v =>
      refine ⟨r.input.takeWhile rustIsWhitespace ++
        (r.input.dropWhile rustIsWhitespace).takeWhile
          (fun c => !rustIsWhitespace c), ?_⟩
      simp only [hp, List.append_assoc]
      rw [List.takeWhile_append_dropWhile, List.takeWhile_append_dropWhile]

/-- Witness for C9: on the reader over `"ab,cd"` the matched literal
`"ab"` is within range of the remaining input. -/
theorem C9_witness :
    ("ab".toList : List Char).length
        ≤ (StringReader.new "ab,cd".toList).input.length :=
  (C9_totality_split_positions (StringReader.new "ab,cd".toList)
    "ab".toList (fun _ => false) Unit Unit
    (fun _ => Except.ok ())).1 (by decide)

/-- C10.  `parse_word`/`read_word` token equivalence: the token
`parse_word` isolates (exposed by running it with a conversion that
returns its argument as the error) is exactly the word `read_word` would
return from the same state, and whenever the conversion succeeds the
cursor ends in exactly the state `read_word` would have left it in. -/
theorem C10_parse_word_read_word_equiv (r : StringReader) (h : r.Wf)
    (ε α : Type) (parse : List Char → Except ε α) :
    (StringReader.parse_word
        (fun w => (Except.error w : Except (List Char) Unit)) r).1
        = Except.error (StringReader.read_word r).1 ∧
    (∀ v, (StringReader.parse_word parse r).1 = Except.ok v →
      (StringReader.parse_word parse r).2
          = (StringReader.read_word r).2) := by
  constructor
  · unfold StringReader.parse_word StringReader.read_word
    rw [StringReader.skip_whitespace_eq r h]
    rfl
  · intro v hok
    unfold StringReader.parse_word at hok ⊢
    unfold StringReader.read_word
    rw [StringReader.skip_whitespace_eq r h]
    cases hp : parse ((r.input.dropWhile rustIsWhitespace).takeWhile
        (fun c => !rustIsWhitespace c)) with
    | error e => simp [hp] at hok
    | ok v0 =>
      simp only [hp]
      rfl

/-- Witness for C10 on the reader over `"  hi there"` with a conversion
that measures the token. -/
theorem C10_witness :
    (StringReader.parse_word
        (fun w => (Except.ok w.length : Except Unit Nat))
        (StringReader.new "  hi there".toList)).2
        = (StringReader.read_word
            (StringReader.new "  hi there".toList)).2 :=
  (C10_parse_word_read_word_equiv (StringReader.new "  hi there".toList)
    rfl Unit Nat (fun w => Except.ok w.length)).2 2 rfl
